import Mathlib

/-!
Shallow embedding of the wavetable-synthesis web repository's analysis and
blending pipeline (`audio.js`).  Sample values and Fourier coefficients are
modelled as rationals wherever the source only adds, multiplies, divides and
compares, and as reals where the source calls trigonometric functions.
A JavaScript read past the end of a typed array yields `undefined`, and
storing it into a `Float32Array` records `NaN`; such values are modelled with
`Option ℚ`, `none` playing the role of `NaN`.  The `-Infinity` initial best
score of the autocorrelation search is modelled with `Option ℚ` as well,
`none` standing for `-Infinity` (strictly below every finite score).
-/

namespace WavetableWeb

/-- A wavetable: a pair of Fourier-coefficient sequences
(`{ real, imag }` objects in `audio.js`). -/
structure Wavetable where
  real : List ℚ
  imag : List ℚ
deriving DecidableEq

instance : Inhabited Wavetable := ⟨⟨[], []⟩⟩

/-- Argument shape accepted by `WavetableOscillator.addWavetable`: either
coefficient field may be missing (`undefined`/`null` in JavaScript). -/
structure MaybeWavetable where
  real : Option (List ℚ)
  imag : Option (List ℚ)
deriving DecidableEq

/-- The blend-relevant state of a `WavetableOscillator`: its table list, the
coefficients of the `PeriodicWave` currently set on the oscillator (the live
spectrum), and the stored position.  The `_periodicWaves` array of the source
is kept element-wise in sync with `wavetables` by the constructor and by
`addWavetable`, so the wave at index `i` is identified with the coefficient
pair at index `i`. -/
structure OscState where
  wavetables : List Wavetable
  spectrum : Option Wavetable
  position : ℚ
deriving DecidableEq

/-- The `WavetableOscillator` constructor: primes the oscillator with the first
table's spectrum when one exists, position starts at 0. -/
def initOsc (tables : List Wavetable) : OscState :=
  { wavetables := tables, spectrum := tables.head?, position := 0 }

/-- Embeds `WavetableOscillator.addWavetable` (`audio.js` lines 99-109): silently
ignores an argument with a missing coefficient sequence; otherwise appends
and, if the stored position is at least 1, re-primes the oscillator with the
new last table.  (The source's extra guard `lastIndex >= 0` is always true
after a push.) -/
def addWavetable (st : OscState) (w : Option MaybeWavetable) : OscState :=
  match w with
  | none => st
  | some wt =>
    match wt.real, wt.imag with
    | some r, some im =>
      let tables := st.wavetables ++ [⟨r, im⟩]
      let lastIndex := tables.length - 1
      if 1 ≤ st.position then
        { st with wavetables := tables, spectrum := some (tables.getD lastIndex default) }
      else
        { st with wavetables := tables }
    | _, _ => st

/-- Embeds `WavetableOscillator.setPosition` (`audio.js` lines 116-161): clamps the
position, then — with two or more tables — linearly interpolates the two
neighbouring tables' coefficients index-wise, reading a missing coefficient
as 0, and sets the blended pair as the live spectrum. -/
def setPosition (st : OscState) (position : ℚ) : OscState :=
  let clamped := max 0 (min 1 position)
  let numWaves := st.wavetables.length
  if numWaves = 0 then { st with position := clamped }
  else if numWaves = 1 then
    { st with position := clamped, spectrum := some (st.wavetables.getD 0 default) }
  else
    let lastIndex := numWaves - 1
    let scaled := clamped * (lastIndex : ℚ)
    let i0 : ℤ := ⌊scaled⌋
    let i1 : ℤ := min (i0 + 1) (lastIndex : ℤ)
    let t : ℚ := scaled - (i0 : ℚ)
    let wt0 := st.wavetables.getD i0.toNat default
    let wt1 := st.wavetables.getD i1.toNat default
    let maxLen := max (max wt0.real.length wt0.imag.length) (max wt1.real.length wt1.imag.length)
    let re := (List.range maxLen).map fun n =>
      wt0.real.getD n 0 * (1 - t) + wt1.real.getD n 0 * t
    let im := (List.range maxLen).map fun n =>
      wt0.imag.getD n 0 * (1 - t) + wt1.imag.getD n 0 * t
    { st with position := clamped, spectrum := some ⟨re, im⟩ }

/-- Embeds `getWindowStartIndicesForCount` (`audio.js` lines 364-375).  `Int.fdiv`
is floor division, matching `Math.floor(usable / (count - 1))`. -/
def getWindowStartIndicesForCount (totalLength windowSize : ℤ) (count : ℕ) : List ℤ :=
  if count ≤ 1 then [0]
  else
    let usable := totalLength - windowSize
    if usable ≤ 0 then [0]
    else
      let step := max 1 (usable.fdiv ((count : ℤ) - 1))
      (List.range count).map fun (i : ℕ) => min ((i : ℤ) * step) (totalLength - windowSize)

/-- Unnormalized autocorrelation of a window at a given lag
(the inner loop of `extractSingleCycle`, `audio.js` lines 240-250):
`Σ window[i] * window[i + lag]` for `i < window.length - lag`. -/
def autocorrScore (window : List ℚ) (lag : ℕ) : ℚ :=
  (List.range (window.length - lag)).foldl
    (fun acc i => acc + window.getD i 0 * window.getD (i + lag) 0) 0

/-- One step of the best-lag search: keep the incumbent unless the new lag's
score strictly exceeds the best score so far (`sum > bestScore`), where a
`none` best score is the initial `-Infinity`. -/
def bestStep (window : List ℚ) (b : ℕ × Option ℚ) (lag : ℕ) : ℕ × Option ℚ :=
  let sum := autocorrScore window lag
  match b.2 with
  | none => (lag, some sum)
  | some s => if s < sum then (lag, some sum) else b

/-- The lag lower bound `minLag = Math.max(2, Math.floor(sampleRate / maxFrequency))`
(`audio.js` line 234).  `Int.toNat` clamps a negative floor to 0, which the
outer `max 2` absorbs exactly as in the source. -/
def minLagOf (sampleRate maxFrequency : ℚ) : ℕ :=
  max 2 (⌊sampleRate / maxFrequency⌋.toNat)

/-- The lag upper bound `maxLag = Math.min(window.length - 2, Math.floor(sampleRate / minFrequency))`
(`audio.js` line 235), kept in `ℤ` so that short windows give a negative
bound just as in the source. -/
def maxLagOf (windowLen : ℕ) (sampleRate minFrequency : ℚ) : ℤ :=
  min ((windowLen : ℤ) - 2) ⌊sampleRate / minFrequency⌋

/-- The candidate lags `minLag, minLag+1, ..., maxLag` visited by the
`for (let lag = minLag; lag <= maxLag; lag++)` loop; empty when
`maxLag < minLag`. -/
def lagCandidates (minLag : ℕ) (maxLag : ℤ) : List ℕ :=
  List.range' minLag (maxLag + 1 - minLag).toNat

/-- The full best-lag fold, starting from `bestLag = minLag`,
`bestScore = -Infinity` (`audio.js` lines 237-250). -/
def bestLagPair (window : List ℚ) (minLag : ℕ) (maxLag : ℤ) : ℕ × Option ℚ :=
  (lagCandidates minLag maxLag).foldl (bestStep window) (minLag, none)

/-- The lag selected by the autocorrelation search. -/
def bestLag (window : List ℚ) (minLag : ℕ) (maxLag : ℤ) : ℕ :=
  (bestLagPair window minLag maxLag).1

/-- The retained period `period = Math.max(2, bestLag)` (`audio.js` line 252). -/
def periodOf (window : List ℚ) (sampleRate minFrequency maxFrequency : ℚ) : ℕ :=
  max 2 (bestLag window (minLagOf sampleRate maxFrequency)
    (maxLagOf window.length sampleRate minFrequency))

/-- A rising zero-crossing between samples `i` and `i+1`:
`window[i] <= 0 && window[i+1] > 0`. -/
def risingAt (window : List ℚ) (i : ℕ) : Prop :=
  window.getD i 0 ≤ 0 ∧ 0 < window.getD (i + 1) 0

instance (window : List ℚ) (i : ℕ) : Decidable (risingAt window i) := by
  unfold risingAt; infer_instance

/-- The crossing scan of `extractSingleCycle` (`audio.js` lines 255-264):
the first `i` with `i < window.length - period - 2` and a rising crossing at
`i` gives start index `i + 1`; otherwise the start index is 0.  (A negative
`searchLimit` in the source runs the loop zero times, matching the truncated
natural subtraction here.) -/
def startIndexOf (window : List ℚ) (period : ℕ) : ℕ :=
  match (List.range (window.length - period - 2)).find?
      (fun i => decide (window.getD i 0 ≤ 0) && decide (0 < window.getD (i + 1) 0)) with
  | some i => i + 1
  | none => 0

/-- The peak loop of `extractSingleCycle` (`audio.js` lines 276-280) over the
copied cycle, in which a `NaN` entry (`none`) never updates the peak because
`NaN > peak` is false. -/
def peakOfOpt (l : List (Option ℚ)) : ℚ :=
  l.foldl (fun p x => match x with | some a => if p < |a| then |a| else p | none => p) 0

/-- The same peak loop over a cycle of plain (in-bounds) samples. -/
def peakQ (l : List ℚ) : ℚ :=
  l.foldl (fun p a => if p < |a| then |a| else p) 0

/-- Embeds `extractSingleCycle` (`audio.js` lines 225-289).  The window is the first
`min(length, 16384)` samples; the period comes from the autocorrelation
search; the cycle is copied from the start index (a read past the window end
stores `NaN`, i.e. `none`); finally the cycle is scaled by `1/peak` when the
peak is positive (`NaN` entries stay `NaN` under the scaling). -/
def extractSingleCycle (samples : List ℚ) (sampleRate minFrequency maxFrequency : ℚ) :
    List (Option ℚ) :=
  if samples = [] then [some 0]
  else
    let window := samples.take 16384
    let period := periodOf window sampleRate minFrequency maxFrequency
    let start0 := startIndexOf window period
    let startIndex := if window.length < start0 + period then 0 else start0
    let cycle := (List.range period).map fun i => window.get? (startIndex + i)
    let peak := peakOfOpt cycle
    if 0 < peak then cycle.map (Option.map fun a => a * (1 / peak)) else cycle

/-- Modelled from the claim's words (for comparison with the source): the
start offset "at the first rising zero-crossing that leaves room for a full
period, or at offset 0 if no such crossing fits" — i.e. the scan accepts any
crossing `i` with `i + 1 + period ≤ window.length`. -/
def claimedStartIndexOf (window : List ℚ) (period : ℕ) : ℕ :=
  match (List.range (window.length - 1)).find?
      (fun i => decide (window.getD i 0 ≤ 0) && decide (0 < window.getD (i + 1) 0)
        && decide (i + 1 + period ≤ window.length)) with
  | some i => i + 1
  | none => 0

/-- Modelled from the claim's words: `extractSingleCycle` with the claimed
start-offset rule in place of the source's bounded scan; identical otherwise. -/
def extractSingleCycleClaimed (samples : List ℚ) (sampleRate minFrequency maxFrequency : ℚ) :
    List (Option ℚ) :=
  if samples = [] then [some 0]
  else
    let window := samples.take 16384
    let period := periodOf window sampleRate minFrequency maxFrequency
    let start0 := claimedStartIndexOf window period
    let startIndex := if window.length < start0 + period then 0 else start0
    let cycle := (List.range period).map fun i => window.get? (startIndex + i)
    let peak := peakOfOpt cycle
    if 0 < peak then cycle.map (Option.map fun a => a * (1 / peak)) else cycle

/-- Embeds `rotateToRisingZeroCrossing` (`audio.js` lines 414-428): scan
`i < N - 1` for the first rising crossing, set `idx = i + 1`; if no crossing
was found (`idx ≤ 0`, the sentinel being -1) return a plain copy, else return
`arr[idx..] ++ arr[..idx]`. -/
def rotateToRisingZeroCrossing (arr : List ℚ) : List ℚ :=
  let found := (List.range (arr.length - 1)).find?
    (fun i => decide (arr.getD i 0 ≤ 0) && decide (0 < arr.getD (i + 1) 0))
  let idx : ℤ := found.elim (-1) (fun i => (i : ℤ) + 1)
  if idx ≤ (0 : ℤ) then arr
  else arr.drop idx.toNat ++ arr.take idx.toNat

/-- Embeds `singleCycleToFourier` (`audio.js` lines 291-316): the DC term is the
mean of the cycle, and for `k = 1 .. harmonics-1` the coefficients are the
`(2/N)`-scaled cosine and sine correlation sums. -/
noncomputable def singleCycleToFourier (cycle : List ℝ) (harmonics : ℕ) : List ℝ × List ℝ :=
  let N := cycle.length
  let mean : ℝ := cycle.foldl (· + ·) 0
  let re := (List.range harmonics).map fun (k : ℕ) =>
    if k = 0 then mean / (N : ℝ)
    else (2 / (N : ℝ)) * ((List.range N).foldl
      (fun acc (n : ℕ) =>
        acc + cycle.getD n 0 * Real.cos (2 * Real.pi * (k : ℝ) * (n : ℝ) / (N : ℝ))) 0)
  let im := (List.range harmonics).map fun (k : ℕ) =>
    if k = 0 then (0 : ℝ)
    else (2 / (N : ℝ)) * ((List.range N).foldl
      (fun acc (n : ℕ) =>
        acc + cycle.getD n 0 * Real.sin (2 * Real.pi * (k : ℝ) * (n : ℝ) / (N : ℝ))) 0)
  (re, im)

/-! ### Generic list helpers -/

theorem foldl_add_eq_sum {M : Type} [AddCommMonoid M] (f : ℕ → M) :
    ∀ (N : ℕ) (init : M),
      (List.range N).foldl (fun acc n => acc + f n) init = init + ∑ n ∈ Finset.range N, f n := by
  intro N
  induction N with
  | zero => intro init; simp
  | succ N ih =>
    intro init
    rw [List.range_succ, List.foldl_append, ih, Finset.sum_range_succ]
    simp [add_assoc]

theorem getD_map_range {α : Type} (f : ℕ → α) (d : α) {H k : ℕ} (hk : k < H) :
    ((List.range H).map f).getD k d = f k := by
  rw [List.getD_eq_getElem?_getD, List.getElem?_map, List.getElem?_range hk]
  rfl

theorem map_range_getD_eq_self {α : Type} (l : List α) (d : α) :
    (List.range l.length).map (fun n => l.getD n d) = l := by
  apply List.ext_getElem (by simp)
  intro i h1 h2
  simp only [List.getElem_map, List.getElem_range]
  rw [List.getD_eq_getElem?_getD, List.getElem?_eq_getElem h2]
  rfl

theorem map_range_getD_of_length {α : Type} {l : List α} {H : ℕ} (h : l.length = H) (d : α) :
    (List.range H).map (fun n => l.getD n d) = l := by
  subst h
  exact map_range_getD_eq_self l d

theorem getD_mem {α : Type} (l : List α) (d : α) {i : ℕ} (h : i < l.length) :
    l.getD i d ∈ l := by
  rw [List.getD_eq_getElem?_getD, List.getElem?_eq_getElem h]
  exact List.getElem_mem h

theorem pairwise_lt_range' : ∀ (n s : ℕ), (List.range' s n).Pairwise (· < ·) := by
  intro n
  induction n with
  | zero => intro s; simp
  | succ n ih =>
    intro s
    rw [List.range'_succ]
    refine List.Pairwise.cons ?_ (ih (s + 1))
    intro y hy
    have := (List.mem_range'_1.mp hy).1
    omega

theorem mem_range'_iff {s n m : ℕ} : m ∈ List.range' s n ↔ s ≤ m ∧ m < s + n :=
  List.mem_range'_1

theorem find?_range'_eq_some (p : ℕ → Bool) :
    ∀ (n s i : ℕ), (List.range' s n).find? p = some i →
      s ≤ i ∧ i < s + n ∧ p i = true ∧ ∀ j, s ≤ j → j < i → p j = false := by
  intro n
  induction n with
  | zero => intro s i h; simp at h
  | succ n ih =>
    intro s i h
    rw [List.range'_succ] at h
    by_cases hp : p s
    · rw [List.find?_cons_of_pos _ hp] at h
      obtain rfl : s = i := by simpa using h
      exact ⟨le_refl s, by omega, hp, fun j h1 h2 => absurd (lt_of_le_of_lt h1 h2) (lt_irrefl _)⟩
    · rw [List.find?_cons_of_neg _ hp] at h
      obtain ⟨h1, h2, h3, h4⟩ := ih (s + 1) i h
      refine ⟨by omega, by omega, h3, ?_⟩
      intro j hj1 hj2
      rcases Nat.eq_or_lt_of_le hj1 with rfl | hj
      · exact Bool.of_not_eq_true hp
      · exact h4 j hj hj2

theorem find?_range'_eq_none (p : ℕ → Bool) (n s : ℕ) :
    (List.range' s n).find? p = none ↔ ∀ j, s ≤ j → j < s + n → p j = false := by
  rw [List.find?_eq_none]
  constructor
  · intro h j h1 h2
    exact Bool.of_not_eq_true (h j (mem_range'_iff.mpr ⟨h1, h2⟩))
  · intro h x hx
    have := mem_range'_iff.mp hx
    simp [h x this.1 this.2]

theorem risingAt_bool_iff (w : List ℚ) (i : ℕ) :
    (decide (w.getD i 0 ≤ 0) && decide (0 < w.getD (i + 1) 0)) = true ↔ risingAt w i := by
  simp [risingAt, Bool.and_eq_true, decide_eq_true_iff]

/-! ### Claim C3: the window segmenter -/

/-- The guarantees claimed for the multi-window branch of the segmenter. -/
def GoodStarts (totalLength windowSize : ℤ) (count : ℕ) : Prop :=
  let res := getWindowStartIndicesForCount totalLength windowSize count
  res.length = count ∧ res.Pairwise (· ≤ ·) ∧ res.head? = some 0 ∧
    ∀ s ∈ res, s + windowSize ≤ totalLength

/-- Claim C3: for every totalLength, windowSize, count: if count ≤ 1 or
totalLength - windowSize ≤ 0, `getWindowStartIndicesForCount` returns exactly
[0]; otherwise it returns exactly `count` offsets that are monotonically
non-decreasing, with first offset 0, and every offset `s` satisfying
`s + windowSize ≤ totalLength`. -/
theorem c3_window_segmenter (totalLength windowSize : ℤ) (count : ℕ) :
    ((count ≤ 1 ∨ totalLength - windowSize ≤ 0) →
      getWindowStartIndicesForCount totalLength windowSize count = [0]) ∧
    (1 < count → 0 < totalLength - windowSize →
      GoodStarts totalLength windowSize count) := by
  constructor
  · intro h
    unfold getWindowStartIndicesForCount
    rcases h with h | h
    · rw [if_pos h]
    · by_cases hc : count ≤ 1
      · rw [if_pos hc]
      · rw [if_neg hc]
        simp only [if_pos h]
  · intro hc hu
    unfold GoodStarts getWindowStartIndicesForCount
    rw [if_neg (by omega), if_neg (by omega)]
    set step := max 1 ((totalLength - windowSize).fdiv ((count : ℤ) - 1)) with hstep
    have hstep0 : (0 : ℤ) ≤ step := le_trans zero_le_one (le_max_left _ _)
    refine ⟨by simp, ?_, ?_, ?_⟩
    · refine List.pairwise_map.mpr (List.Pairwise.imp ?_ (List.pairwise_lt_range count))
      intro a b hab
      exact min_le_min
        (mul_le_mul_of_nonneg_right (by exact_mod_cast le_of_lt hab) hstep0) (le_refl _)
    · obtain ⟨c, rfl⟩ : ∃ c, count = c + 1 := ⟨count - 1, by omega⟩
      rw [List.range_succ_eq_map]
      simp only [List.map_cons, List.head?_cons, Nat.cast_zero, zero_mul]
      rw [min_eq_left (le_of_lt hu)]
    · intro s hs
      rw [List.mem_map] at hs
      obtain ⟨i, _, rfl⟩ := hs
      have := min_le_right ((i : ℤ) * step) (totalLength - windowSize)
      omega

/-- Claim C3 witness: the degenerate branch at (1000, 2048, 5) — the spec's
own example — and the multi-window branch at (10000, 2048, 10). -/
theorem c3_window_segmenter_witness :
    getWindowStartIndicesForCount 1000 2048 5 = [0] ∧ GoodStarts 10000 2048 10 :=
  ⟨(c3_window_segmenter 1000 2048 5).1 (Or.inr (by norm_num)),
   (c3_window_segmenter 10000 2048 10).2 (by norm_num) (by norm_num)⟩

/-! ### Claim C9: addWavetable on malformed input -/

/-- Claim C9: for every argument that is missing either the real or the imag
coefficient sequence (or is absent entirely), `addWavetable` returns without
raising an error and leaves the oscillator state — in particular the
wavetable sequence — completely unchanged. -/
theorem c9_addWavetable_malformed (st : OscState) (w : Option MaybeWavetable)
    (h : w = none ∨ ∃ wt, w = some wt ∧ (wt.real = none ∨ wt.imag = none)) :
    addWavetable st w = st := by
  rcases h with rfl | ⟨wt, rfl, h⟩
  · rfl
  · rcases wt with ⟨r, im⟩
    rcases h with h | h
    · simp only at h
      subst h
      cases im <;> rfl
    · simp only at h
      subst h
      cases r <;> rfl

/-- Claim C9 witness: adding a wavetable whose `real` field is missing to a
concrete one-table oscillator state leaves the state unchanged. -/
theorem c9_addWavetable_malformed_witness :
    addWavetable ⟨[⟨[1], [2]⟩], some ⟨[1], [2]⟩, 0⟩ (some ⟨none, some [3]⟩) =
      ⟨[⟨[1], [2]⟩], some ⟨[1], [2]⟩, 0⟩ :=
  c9_addWavetable_malformed _ _ (Or.inr ⟨_, rfl, Or.inl rfl⟩)

/-! ### Claim C10: zero-crossing alignment rotation -/

/-- Claim C10: for every non-empty input buffer, `rotateToRisingZeroCrossing`
returns a buffer of the same length that is a cyclic rotation of the input,
and returns a copy equal to the input when no rising zero-crossing exists.
(The source never writes to its argument — it fills a fresh output array or
returns `arr.slice()` — so the embedding is a pure function of the input.) -/
theorem c10_rotate_cyclic (arr : List ℚ) (h : arr ≠ []) :
    (rotateToRisingZeroCrossing arr).length = arr.length ∧
    (∃ k, k < arr.length ∧ rotateToRisingZeroCrossing arr = arr.rotate k) ∧
    ((∀ i, i < arr.length - 1 → ¬ risingAt arr i) → rotateToRisingZeroCrossing arr = arr) := by
  have hlen : 0 < arr.length := List.length_pos.mpr h
  unfold rotateToRisingZeroCrossing
  rcases hfound : (List.range (arr.length - 1)).find?
      (fun i => decide (arr.getD i 0 ≤ 0) && decide (0 < arr.getD (i + 1) 0)) with _ | i
  · simp only [Option.elim_none]
    rw [if_pos (by norm_num)]
    exact ⟨rfl, ⟨0, hlen, (List.rotate_zero arr).symm⟩, fun _ => rfl⟩
  · rw [List.range_eq_range'] at hfound
    obtain ⟨-, hi, hpi, -⟩ := find?_range'_eq_some _ _ _ _ hfound
    simp only [Option.elim_some]
    rw [if_neg (by omega)]
    have htn : ((i : ℤ) + 1).toNat = i + 1 := by omega
    rw [htn]
    have hik : i + 1 < arr.length := by omega
    refine ⟨?_, ⟨i + 1, hik, ?_⟩, ?_⟩
    · rw [List.length_append, List.length_drop, List.length_take]
      omega
    · rw [List.rotate_eq_drop_append_take (le_of_lt hik)]
    · intro hno
      exact absurd ((risingAt_bool_iff arr i).mp hpi) (hno i (by omega))

/-- Claim C10 witness: a concrete buffer with a rising crossing between
indices 1 and 2 is rotated to start at index 2. -/
theorem c10_rotate_cyclic_witness :
    (rotateToRisingZeroCrossing [1, -1, 2]).length = ([1, -1, 2] : List ℚ).length ∧
    (∃ k, k < ([1, -1, 2] : List ℚ).length ∧
      rotateToRisingZeroCrossing [1, -1, 2] = ([1, -1, 2] : List ℚ).rotate k) ∧
    ((∀ i, i < ([1, -1, 2] : List ℚ).length - 1 → ¬ risingAt [1, -1, 2] i) →
      rotateToRisingZeroCrossing [1, -1, 2] = [1, -1, 2]) :=
  c10_rotate_cyclic [1, -1, 2] (by simp)

/-! ### Claims C1 and C4: the Fourier codec -/

/-- The coefficient formulas claimed for the codec: two length-`H` sequences,
`real[0]` the mean of the cycle, and for `1 ≤ k ≤ H-1` the `(2/N)`-scaled
cosine/sine correlation sums. -/
def FourierSpec (cycle : List ℝ) (H : ℕ) : Prop :=
  ((singleCycleToFourier cycle H).1.length = H ∧
    (singleCycleToFourier cycle H).2.length = H) ∧
  (singleCycleToFourier cycle H).1.getD 0 0 = cycle.sum / (cycle.length : ℝ) ∧
  ∀ k, 1 ≤ k → k < H →
    (singleCycleToFourier cycle H).1.getD k 0 =
      (2 / (cycle.length : ℝ)) * ∑ n ∈ Finset.range cycle.length,
        cycle.getD n 0 * Real.cos (2 * Real.pi * (k : ℝ) * (n : ℝ) / (cycle.length : ℝ)) ∧
    (singleCycleToFourier cycle H).2.getD k 0 =
      (2 / (cycle.length : ℝ)) * ∑ n ∈ Finset.range cycle.length,
        cycle.getD n 0 * Real.sin (2 * Real.pi * (k : ℝ) * (n : ℝ) / (cycle.length : ℝ))

/-- Claim C1: for every non-empty cycle of length N and every harmonics count
H ≥ 1, `singleCycleToFourier` returns a pair of H-length coefficient
sequences with `real[0] = mean(cycle)` and, for `1 ≤ k ≤ H-1`,
`real[k] = (2/N)·Σ cycle[n]·cos(2πkn/N)` and
`imag[k] = (2/N)·Σ cycle[n]·sin(2πkn/N)`. -/
theorem c1_fourier_codec (cycle : List ℝ) (H : ℕ) (hc : cycle ≠ []) (hH : 1 ≤ H) :
    FourierSpec cycle H := by
  have _ := hc
  unfold FourierSpec singleCycleToFourier
  refine ⟨⟨by simp, by simp⟩, ?_, ?_⟩
  · rw [getD_map_range _ _ (by omega : 0 < H)]
    rw [if_pos rfl, List.sum_eq_foldl]
  · intro k hk1 hk2
    constructor
    · rw [getD_map_range _ _ hk2, if_neg (by omega)]
      rw [foldl_add_eq_sum
        (fun n => cycle.getD n 0 *
          Real.cos (2 * Real.pi * (k : ℝ) * (n : ℝ) / (cycle.length : ℝ)))]
      rw [zero_add]
    · rw [getD_map_range _ _ hk2, if_neg (by omega)]
      rw [foldl_add_eq_sum
        (fun n => cycle.getD n 0 *
          Real.sin (2 * Real.pi * (k : ℝ) * (n : ℝ) / (cycle.length : ℝ)))]
      rw [zero_add]

/-- Claim C1 witness: the codec spec instantiated on the concrete cycle
[1, 2] with 2 harmonics. -/
theorem c1_fourier_codec_witness :
    ([1, 2] : List ℝ) ≠ [] ∧ 1 ≤ 2 ∧ FourierSpec [1, 2] 2 :=
  ⟨by simp, by norm_num, c1_fourier_codec [1, 2] 2 (by simp) (by norm_num)⟩

/-- Claim C4 counterexample: called with harmonics = 0 (on the non-empty
cycle [1]), the codec does not fail — it returns the coefficient pair of two
empty sequences.  The source has no exception path: the out-of-bounds store
`real[0] = mean / N` on a zero-length `Float32Array` is silently dropped and
both loops run zero times. -/
theorem c4_no_failure_counterexample :
    singleCycleToFourier [1] 0 = ([], []) := rfl

/-- Claim C4 amended: the codec never fails; for every cycle and harmonics
count it returns a pair of length-`harmonics` coefficient sequences.  In
particular harmonics = 0 yields two empty sequences, and an empty cycle
yields length-`harmonics` sequences (whose entries in the source are NaN from
the division by N = 0) rather than an `InvalidArgument` error. -/
theorem c4_total_codec (cycle : List ℝ) (harmonics : ℕ) :
    (singleCycleToFourier cycle harmonics).1.length = harmonics ∧
    (singleCycleToFourier cycle harmonics).2.length = harmonics := by
  unfold singleCycleToFourier
  exact ⟨by simp, by simp⟩

/-! ### Claims C2 and C8: the blend engine -/

/-- The clamped position `Math.max(0, Math.min(1, position))`. -/
def clampedOf (p : ℚ) : ℚ := max 0 (min 1 p)

/-- The lower blend index `i0 = Math.floor(clamped * lastIndex)`. -/
def i0Of (st : OscState) (p : ℚ) : ℤ :=
  ⌊clampedOf p * ((st.wavetables.length - 1 : ℕ) : ℚ)⌋

/-- The upper blend index `i1 = Math.min(i0 + 1, lastIndex)`. -/
def i1Of (st : OscState) (p : ℚ) : ℤ :=
  min (i0Of st p + 1) ((st.wavetables.length - 1 : ℕ) : ℤ)

/-- The fractional blend weight `t = scaled - i0`. -/
def tOf (st : OscState) (p : ℚ) : ℚ :=
  clampedOf p * ((st.wavetables.length - 1 : ℕ) : ℚ) - ((i0Of st p : ℤ) : ℚ)

/-- The lower of the two adjacent wavetables selected by `setPosition`. -/
def wt0Of (st : OscState) (p : ℚ) : Wavetable :=
  st.wavetables.getD (i0Of st p).toNat default

/-- The upper of the two adjacent wavetables selected by `setPosition`. -/
def wt1Of (st : OscState) (p : ℚ) : Wavetable :=
  st.wavetables.getD (i1Of st p).toNat default

/-- The blend length `maxLen`: the maximum of the four coefficient-sequence lengths. -/
def blendLen (st : OscState) (p : ℚ) : ℕ :=
  max (max (wt0Of st p).real.length (wt0Of st p).imag.length)
    (max (wt1Of st p).real.length (wt1Of st p).imag.length)

theorem setPosition_spectrum_of_two (st : OscState) (p : ℚ)
    (h2 : 2 ≤ st.wavetables.length) :
    (setPosition st p).spectrum =
      some ⟨(List.range (blendLen st p)).map fun n =>
              (wt0Of st p).real.getD n 0 * (1 - tOf st p) +
                (wt1Of st p).real.getD n 0 * tOf st p,
            (List.range (blendLen st p)).map fun n =>
              (wt0Of st p).imag.getD n 0 * (1 - tOf st p) +
                (wt1Of st p).imag.getD n 0 * tOf st p⟩ := by
  unfold setPosition blendLen wt0Of wt1Of tOf i1Of i0Of clampedOf
  rw [if_neg (by omega), if_neg (by omega)]

/-- The interpolation behaviour claimed for `setPosition` with at least two
tables: the live spectrum has both sequences of length `maxLen`, and each
coefficient is the `t`-weighted linear interpolation of the two selected
tables' coefficients, missing entries read as 0. -/
def BlendSpec (st : OscState) (p : ℚ) : Prop :=
  ∃ wt, (setPosition st p).spectrum = some wt ∧
    wt.real.length = blendLen st p ∧ wt.imag.length = blendLen st p ∧
    ∀ n, n < blendLen st p →
      wt.real.getD n 0 = (wt0Of st p).real.getD n 0 * (1 - tOf st p) +
        (wt1Of st p).real.getD n 0 * tOf st p ∧
      wt.imag.getD n 0 = (wt0Of st p).imag.getD n 0 * (1 - tOf st p) +
        (wt1Of st p).imag.getD n 0 * tOf st p

/-- Claim C8: for every pair of adjacent wavetables selected by
`setPosition`, with possibly unequal coefficient-sequence lengths, the
interpolated live spectrum has length `maxLen` (the maximum of the four
sequence lengths) and interpolates index-wise with out-of-range coefficients
taken as 0. -/
theorem c8_ragged_blend (st : OscState) (p : ℚ) (h2 : 2 ≤ st.wavetables.length) :
    BlendSpec st p := by
  refine ⟨_, setPosition_spectrum_of_two st p h2, by simp, by simp, ?_⟩
  intro n hn
  constructor
  · exact getD_map_range _ _ hn
  · exact getD_map_range _ _ hn

/-- Claim C8 witness: blending a 4-coefficient table with an 8-coefficient
table at position 1/2 — the spec's ragged-length example. -/
theorem c8_ragged_blend_witness :
    BlendSpec ⟨[⟨[1, 2, 3, 4], [5, 6, 7, 8]⟩,
      ⟨[10, 20, 30, 40, 50, 60, 70, 80], [1, 1, 1, 1, 1, 1, 1, 1]⟩], none, 0⟩ (1/2) :=
  c8_ragged_blend _ _ (by norm_num)

/-- Claim C2: with at least two tables, all of a common coefficient length,
`setPosition 0` sets the live spectrum to the first table's coefficients and
`setPosition 1` sets it to the last table's coefficients. -/
theorem c2_blend_boundary (st : OscState) (H : ℕ) (h2 : 2 ≤ st.wavetables.length)
    (hU : ∀ wt ∈ st.wavetables, wt.real.length = H ∧ wt.imag.length = H) :
    (setPosition st 0).spectrum = some (st.wavetables.getD 0 default) ∧
    (setPosition st 1).spectrum =
      some (st.wavetables.getD (st.wavetables.length - 1) default) := by
  have hcl0 : clampedOf 0 = 0 := by norm_num [clampedOf]
  have hcl1 : clampedOf 1 = 1 := by norm_num [clampedOf]
  constructor
  · have hi0 : i0Of st 0 = 0 := by
      rw [i0Of, hcl0, zero_mul, Int.floor_zero]
    have ht : tOf st 0 = 0 := by
      rw [tOf, hcl0, hi0, zero_mul, Int.cast_zero, sub_zero]
    have hi1 : i1Of st 0 = 1 := by
      rw [i1Of, hi0, zero_add]
      exact min_eq_left (by omega)
    have hw0 : wt0Of st 0 = st.wavetables.getD 0 default := by
      rw [wt0Of, hi0]
      rfl
    have hw1 : wt1Of st 0 = st.wavetables.getD 1 default := by
      rw [wt1Of, hi1]
      rfl
    obtain ⟨hr0, hc0⟩ := hU _ (getD_mem st.wavetables default (by omega : 0 < st.wavetables.length))
    obtain ⟨hr1, hc1⟩ := hU _ (getD_mem st.wavetables default (by omega : 1 < st.wavetables.length))
    have hL : blendLen st 0 = H := by
      rw [blendLen, hw0, hw1, hr0, hc0, hr1, hc1]
      simp
    rw [setPosition_spectrum_of_two st 0 h2, hL, ht, hw0, hw1]
    simp only [sub_zero, mul_one, mul_zero, add_zero]
    rw [map_range_getD_of_length hr0, map_range_getD_of_length hc0]
  · have hlast : ((st.wavetables.length - 1 : ℕ) : ℚ) ≥ 0 := by positivity
    have hi0 : i0Of st 1 = ((st.wavetables.length - 1 : ℕ) : ℤ) := by
      rw [i0Of, hcl1, one_mul, Int.floor_natCast]
    have ht : tOf st 1 = 0 := by
      rw [tOf, hcl1, hi0, one_mul, Int.cast_natCast, sub_self]
    have hi1 : i1Of st 1 = ((st.wavetables.length - 1 : ℕ) : ℤ) := by
      rw [i1Of, hi0]
      exact min_eq_right (by omega)
    have hw0 : wt0Of st 1 = st.wavetables.getD (st.wavetables.length - 1) default := by
      rw [wt0Of, hi0, Int.toNat_natCast]
    have hw1 : wt1Of st 1 = st.wavetables.getD (st.wavetables.length - 1) default := by
      rw [wt1Of, hi1, Int.toNat_natCast]
    obtain ⟨hrL, hcL⟩ := hU _ (getD_mem st.wavetables default
      (by omega : st.wavetables.length - 1 < st.wavetables.length))
    have hL : blendLen st 1 = H := by
      rw [blendLen, hw0, hw1, hrL, hcL]
      simp
    rw [setPosition_spectrum_of_two st 1 h2, hL, ht, hw0, hw1]
    simp only [sub_zero, mul_one, mul_zero, add_zero]
    rw [map_range_getD_of_length hrL, map_range_getD_of_length hcL]

/-- Claim C2 witness: a concrete three-table state with common length 2;
position 0 reproduces the first table and position 1 the last. -/
theorem c2_blend_boundary_witness :
    (setPosition ⟨[⟨[1, 2], [3, 4]⟩, ⟨[5, 6], [7, 8]⟩, ⟨[9, 10], [11, 12]⟩], none, 0⟩ 0).spectrum =
      some (([⟨[1, 2], [3, 4]⟩, ⟨[5, 6], [7, 8]⟩, ⟨[9, 10], [11, 12]⟩] :
        List Wavetable).getD 0 default) ∧
    (setPosition ⟨[⟨[1, 2], [3, 4]⟩, ⟨[5, 6], [7, 8]⟩, ⟨[9, 10], [11, 12]⟩], none, 0⟩ 1).spectrum =
      some (([⟨[1, 2], [3, 4]⟩, ⟨[5, 6], [7, 8]⟩, ⟨[9, 10], [11, 12]⟩] :
        List Wavetable).getD (([⟨[1, 2], [3, 4]⟩, ⟨[5, 6], [7, 8]⟩, ⟨[9, 10], [11, 12]⟩] :
          List Wavetable).length - 1) default) :=
  c2_blend_boundary _ 2 (by norm_num) (by
    intro wt hwt
    fin_cases hwt <;> exact ⟨rfl, rfl⟩)

/-! ### Peak-normalization lemmas -/

theorem peak_foldl_le (l : List ℚ) :
    ∀ q : ℚ, q ≤ l.foldl (fun p a => if p < |a| then |a| else p) q := by
  induction l with
  | nil => intro q; exact le_refl q
  | cons a l ih =>
    intro q
    rw [List.foldl_cons]
    refine le_trans ?_ (ih _)
    show q ≤ if q < |a| then |a| else q
    by_cases h : q < |a|
    · rw [if_pos h]
      exact le_of_lt h
    · rw [if_neg h]

theorem abs_le_peak_foldl (l : List ℚ) :
    ∀ (q : ℚ) (a : ℚ), a ∈ l → |a| ≤ l.foldl (fun p a => if p < |a| then |a| else p) q := by
  induction l with
  | nil => intro q a ha; simp at ha
  | cons b l ih =>
    intro q a ha
    rcases List.mem_cons.mp ha with rfl | ha
    · rw [List.foldl_cons]
      refine le_trans ?_ (peak_foldl_le l _)
      show |a| ≤ if q < |a| then |a| else q
      by_cases h : q < |a|
      · rw [if_pos h]
      · rw [if_neg h]
        exact le_of_not_lt h
    · rw [List.foldl_cons]
      exact ih _ a ha

theorem peak_foldl_cases (l : List ℚ) :
    ∀ q : ℚ, l.foldl (fun p a => if p < |a| then |a| else p) q = q ∨
      ∃ a ∈ l, l.foldl (fun p a => if p < |a| then |a| else p) q = |a| := by
  induction l with
  | nil => intro q; exact Or.inl rfl
  | cons b l ih =>
    intro q
    by_cases h : q < |b|
    · simp only [List.foldl_cons, if_pos h]
      rcases ih |b| with h1 | ⟨a, ha, h1⟩
      · exact Or.inr ⟨b, List.mem_cons_self b l, h1⟩
      · exact Or.inr ⟨a, List.mem_cons_of_mem b ha, h1⟩
    · simp only [List.foldl_cons, if_neg h]
      rcases ih q with h1 | ⟨a, ha, h1⟩
      · exact Or.inl h1
      · exact Or.inr ⟨a, List.mem_cons_of_mem b ha, h1⟩

theorem peakQ_nonneg (l : List ℚ) : 0 ≤ peakQ l := peak_foldl_le l 0

theorem abs_le_peakQ {l : List ℚ} {a : ℚ} (ha : a ∈ l) : |a| ≤ peakQ l :=
  abs_le_peak_foldl l 0 a ha

theorem peakQ_eq_zero {l : List ℚ} (h : ∀ a ∈ l, a = 0) : peakQ l = 0 := by
  rcases peak_foldl_cases l 0 with h1 | ⟨a, ha, h1⟩
  · exact h1
  · rw [peakQ, h1, h a ha, abs_zero]

theorem peakQ_pos {l : List ℚ} {a : ℚ} (ha : a ∈ l) (h : a ≠ 0) : 0 < peakQ l :=
  lt_of_lt_of_le (abs_pos.mpr h) (abs_le_peakQ ha)

theorem peakQ_achieved {l : List ℚ} (h : 0 < peakQ l) : ∃ a ∈ l, |a| = peakQ l := by
  rcases peak_foldl_cases l 0 with h1 | ⟨a, ha, h1⟩
  · rw [peakQ] at h
    rw [h1] at h
    exact absurd h (lt_irrefl 0)
  · exact ⟨a, ha, h1.symm⟩

theorem peakOfOpt_map_some (l : List ℚ) : peakOfOpt (l.map some) = peakQ l := by
  unfold peakOfOpt peakQ
  rw [List.foldl_map]

/-! ### Claim C5: empty lag range does not fail -/

theorem lagCandidates_eq_nil {minLag : ℕ} {maxLag : ℤ} (h : maxLag < (minLag : ℤ)) :
    lagCandidates minLag maxLag = [] := by
  unfold lagCandidates
  have he : (maxLag + 1 - (minLag : ℤ)).toNat = 0 := by omega
  rw [he]
  rfl

theorem extractSingleCycle_of_ne (samples : List ℚ) (sr minF maxF : ℚ)
    (hs : samples ≠ []) :
    extractSingleCycle samples sr minF maxF =
      (let window := samples.take 16384
       let period := periodOf window sr minF maxF
       let start0 := startIndexOf window period
       let startIndex := if window.length < start0 + period then 0 else start0
       let cycle := (List.range period).map fun i => window.get? (startIndex + i)
       let peak := peakOfOpt cycle
       if 0 < peak then cycle.map (Option.map fun a => a * (1 / peak)) else cycle) := by
  unfold extractSingleCycle
  rw [if_neg hs]

/-- Claim C5 counterexample: with window [1,2,3,4] at sampleRate 100,
minFrequency 50, maxFrequency 10 we get minLag = 10 > maxLag = 2, yet
`extractSingleCycle` does not fail: the lag loop is skipped, the period is
minLag = 10, and a 10-sample cycle is returned (its last six entries read
past the window and are NaN, modelled as `none`). -/
theorem c5_no_failure_counterexample :
    extractSingleCycle [1, 2, 3, 4] 100 50 10 =
      [some (1/4), some (1/2), some (3/4), some 1, none, none, none, none, none, none] :=
  of_decide_eq_true (by with_unfolding_all rfl)

/-- Claim C5 amended: when minLag = max(2, ⌊sampleRate/maxFreq⌋) exceeds
maxLag = min(len(window)-2, ⌊sampleRate/minFreq⌋), the period estimator does
not fail with an `InvalidRange` error (the source throws nothing): the
autocorrelation loop body never runs, the selected lag stays at its
initialization minLag, the period is max(2, minLag) = minLag, and extraction
returns a cycle of exactly minLag entries (entries beyond the window being
NaN).  Positive frequency bounds are assumed, matching the configuration
surface; at zero the source divides by zero while the rational model does
not. -/
theorem c5_lag_range_no_failure (samples : List ℚ) (sr minF maxF : ℚ)
    (hs : samples ≠ []) (hminF : 0 < minF) (hmaxF : 0 < maxF)
    (h : maxLagOf (samples.take 16384).length sr minF < (minLagOf sr maxF : ℤ)) :
    bestLag (samples.take 16384) (minLagOf sr maxF)
        (maxLagOf (samples.take 16384).length sr minF) = minLagOf sr maxF ∧
    periodOf (samples.take 16384) sr minF maxF = minLagOf sr maxF ∧
    (extractSingleCycle samples sr minF maxF).length = minLagOf sr maxF := by
  have _ := hminF
  have _ := hmaxF
  have hbest : bestLag (samples.take 16384) (minLagOf sr maxF)
      (maxLagOf (samples.take 16384).length sr minF) = minLagOf sr maxF := by
    unfold bestLag bestLagPair
    rw [lagCandidates_eq_nil h]
    rfl
  have hper : periodOf (samples.take 16384) sr minF maxF = minLagOf sr maxF := by
    unfold periodOf
    rw [hbest]
    exact max_eq_right (le_max_left _ _)
  refine ⟨hbest, hper, ?_⟩
  rw [extractSingleCycle_of_ne _ _ _ _ hs]
  simp only [hper]
  split <;> split <;> simp

/-- Claim C5 witness: the amended statement instantiated at a concrete
5-sample window whose lag range is empty (minLag = 10 > maxLag = 2). -/
theorem c5_lag_range_no_failure_witness :
    maxLagOf (([1, 2, 3, 4, 5] : List ℚ).take 16384).length 100 50 < (minLagOf 100 10 : ℤ) ∧
    (bestLag (([1, 2, 3, 4, 5] : List ℚ).take 16384) (minLagOf 100 10)
        (maxLagOf (([1, 2, 3, 4, 5] : List ℚ).take 16384).length 100 50) = minLagOf 100 10 ∧
      periodOf (([1, 2, 3, 4, 5] : List ℚ).take 16384) 100 50 10 = minLagOf 100 10 ∧
      (extractSingleCycle [1, 2, 3, 4, 5] 100 50 10).length = minLagOf 100 10) :=
  ⟨of_decide_eq_true (by with_unfolding_all rfl),
   c5_lag_range_no_failure [1, 2, 3, 4, 5] 100 50 10 (by simp) (by norm_num) (by norm_num)
     (of_decide_eq_true (by with_unfolding_all rfl))⟩

/-! ### Claim C6: the extracted cycle -/

theorem get?_eq_some_getD {α : Type} (l : List α) (d : α) {j : ℕ} (h : j < l.length) :
    l.get? j = some (l.getD j d) := by
  rw [List.get?_eq_getElem?, List.getElem?_eq_getElem h, List.getD_eq_getElem?_getD,
    List.getElem?_eq_getElem h]
  rfl

/-- Declarative characterization of the crossing scan: either the first
rising crossing in the bounded scan range gives start index `i + 1`, or there
is none in that range and the start index is 0. -/
theorem startIndexOf_spec (window : List ℚ) (period : ℕ) :
    (∃ i, i < window.length - period - 2 ∧ risingAt window i ∧
        (∀ j, j < i → ¬ risingAt window j) ∧ startIndexOf window period = i + 1) ∨
      ((∀ i, i < window.length - period - 2 → ¬ risingAt window i) ∧
        startIndexOf window period = 0) := by
  unfold startIndexOf
  rw [List.range_eq_range']
  rcases hf : (List.range' 0 (window.length - period - 2)).find?
      (fun i => decide (window.getD i 0 ≤ 0) && decide (0 < window.getD (i + 1) 0)) with _ | i
  · right
    rw [find?_range'_eq_none] at hf
    refine ⟨?_, rfl⟩
    intro i hi hr
    have hb := (risingAt_bool_iff window i).mpr hr
    rw [hf i (Nat.zero_le i) (by omega)] at hb
    exact Bool.false_ne_true hb
  · left
    obtain ⟨-, hi, hpi, hmin⟩ := find?_range'_eq_some _ _ _ _ hf
    refine ⟨i, by omega, (risingAt_bool_iff window i).mp hpi, ?_, rfl⟩
    intro j hj hr
    have hb := (risingAt_bool_iff window j).mpr hr
    rw [hmin j (Nat.zero_le j) hj] at hb
    exact Bool.false_ne_true hb

/-- The analysis window: the first `min(length, 16384)` samples. -/
def windowOf (samples : List ℚ) : List ℚ := samples.take 16384

/-- The `period` samples copied from the selected start offset (in-bounds
reads only; this describes the copy when the period fits in the window). -/
def copiedCycle (samples : List ℚ) (sr minF maxF : ℚ) : List ℚ :=
  (List.range (periodOf (windowOf samples) sr minF maxF)).map fun i =>
    (windowOf samples).getD
      (startIndexOf (windowOf samples) (periodOf (windowOf samples) sr minF maxF) + i) 0

/-- The behaviour claimed of `extractSingleCycle` on a non-empty window whose
estimated period fits: exactly `period` samples copied from the selected
start offset, peak-normalized to maximum absolute value 1 unless every copied
sample is 0 (then returned unscaled), the start offset being `i + 1` for the
first rising crossing `i` in the code's bounded scan range, or 0 if that
range has none. -/
def ExtractSpec (samples : List ℚ) (sr minF maxF : ℚ) : Prop :=
  (extractSingleCycle samples sr minF maxF).length =
    periodOf (windowOf samples) sr minF maxF ∧
  ((∃ a ∈ copiedCycle samples sr minF maxF, a ≠ 0) →
    extractSingleCycle samples sr minF maxF =
      (copiedCycle samples sr minF maxF).map
        (fun a => some (a * (1 / peakQ (copiedCycle samples sr minF maxF)))) ∧
    (∀ o ∈ extractSingleCycle samples sr minF maxF, ∃ a, o = some a ∧ |a| ≤ 1) ∧
    (∃ o ∈ extractSingleCycle samples sr minF maxF, o = some 1 ∨ o = some (-1))) ∧
  ((∀ a ∈ copiedCycle samples sr minF maxF, a = 0) →
    extractSingleCycle samples sr minF maxF = (copiedCycle samples sr minF maxF).map some) ∧
  ((∃ i, i < (windowOf samples).length - periodOf (windowOf samples) sr minF maxF - 2 ∧
      risingAt (windowOf samples) i ∧ (∀ j, j < i → ¬ risingAt (windowOf samples) j) ∧
      startIndexOf (windowOf samples) (periodOf (windowOf samples) sr minF maxF) = i + 1) ∨
    ((∀ i, i < (windowOf samples).length - periodOf (windowOf samples) sr minF maxF - 2 →
        ¬ risingAt (windowOf samples) i) ∧
      startIndexOf (windowOf samples) (periodOf (windowOf samples) sr minF maxF) = 0))

/-- Claim C6 counterexample: at samples [1,2,1,-1,3,4] (sampleRate 100, both
frequency bounds 50) the period is 2 and the buffer has a rising
zero-crossing at i = 3 that leaves room for a full period
(3 + 1 + 2 ≤ 6), so the claimed rule starts the cycle at offset 4 and yields
[3/4, 1] after normalization; the source's scan stops at
`length - period - 2 = 2`, misses that crossing, falls back to offset 0 and
returns [1/2, 1]. -/
theorem c6_start_offset_counterexample :
    extractSingleCycle [1, 2, 1, -1, 3, 4] 100 50 50 = [some (1/2), some 1] ∧
    extractSingleCycleClaimed [1, 2, 1, -1, 3, 4] 100 50 50 = [some (3/4), some 1] ∧
    startIndexOf (windowOf [1, 2, 1, -1, 3, 4])
      (periodOf (windowOf [1, 2, 1, -1, 3, 4]) 100 50 50) = 0 ∧
    claimedStartIndexOf (windowOf [1, 2, 1, -1, 3, 4])
      (periodOf (windowOf [1, 2, 1, -1, 3, 4]) 100 50 50) = 4 :=
  of_decide_eq_true (by with_unfolding_all rfl)

/-- Claim C6 amended: for empty input `extractSingleCycle` returns the
one-element cycle [0]; for every non-empty sample window whose estimated
period fits inside the window (beyond that the source reads out of bounds
and produces NaN entries), it returns exactly `period` samples copied from
the start offset selected by the code's bounded crossing scan
(`i < length - period - 2`; a crossing outside that range is ignored even if
a full period would still fit, in which case offset 0 is used), and the cycle
is peak-normalized to maximum absolute value 1 unless every copied sample is
0, in which case it is returned unscaled.  Positive frequency bounds
assumed. -/
theorem c6_extract_cycle (samples : List ℚ) (sr minF maxF : ℚ)
    (hminF : 0 < minF) (hmaxF : 0 < maxF) :
    extractSingleCycle [] sr minF maxF = [some 0] ∧
    (samples ≠ [] →
      periodOf (windowOf samples) sr minF maxF ≤ (windowOf samples).length →
      ExtractSpec samples sr minF maxF) := by
  have _ := hminF
  have _ := hmaxF
  refine ⟨rfl, ?_⟩
  intro hs hp
  unfold ExtractSpec
  set w := windowOf samples with hw
  set p := periodOf w sr minF maxF with hpd
  set s := startIndexOf w p with hsd
  set copied := copiedCycle samples sr minF maxF with hcd
  have hcopied : copied = (List.range p).map fun i => w.getD (s + i) 0 := by
    rw [hcd]
    unfold copiedCycle
    rw [← hw, ← hpd, ← hsd]
  have hsp : s + p ≤ w.length := by
    rcases startIndexOf_spec w p with ⟨i, hi, -, -, hsi⟩ | ⟨-, hsi⟩
    · rw [← hsd] at hsi
      omega
    · rw [← hsd] at hsi
      omega
  have hrw : extractSingleCycle samples sr minF maxF =
      if 0 < peakQ copied then
        (copied.map some).map (Option.map fun a => a * (1 / peakQ copied))
      else copied.map some := by
    rw [extractSingleCycle_of_ne _ _ _ _ hs]
    have hw2 : List.take 16384 samples = w := rfl
    simp only [hw2, ← hpd, ← hsd]
    rw [if_neg (by omega : ¬ w.length < s + p)]
    have hcyc : ((List.range p).map fun i => w.get? (s + i)) = copied.map some := by
      rw [hcopied, List.map_map]
      refine List.map_congr_left ?_
      intro i hi
      rw [List.mem_range] at hi
      exact get?_eq_some_getD w 0 (by omega)
    rw [hcyc, peakOfOpt_map_some]
  refine ⟨?_, ?_, ?_, ?_⟩
  · rw [hrw]
    split <;> simp [hcopied]
  · intro h1
    obtain ⟨a, ha, hne⟩ := h1
    have hpos : 0 < peakQ copied := peakQ_pos ha hne
    have hres : extractSingleCycle samples sr minF maxF =
        copied.map fun a => some (a * (1 / peakQ copied)) := by
      rw [hrw, if_pos hpos, List.map_map]
      refine List.map_congr_left ?_
      intro b _
      rfl
    refine ⟨hres, ?_, ?_⟩
    · intro o ho
      rw [hres, List.mem_map] at ho
      obtain ⟨b, hb, rfl⟩ := ho
      refine ⟨b * (1 / peakQ copied), rfl, ?_⟩
      rw [mul_one_div, abs_div, abs_of_pos hpos]
      rw [div_le_one hpos]
      exact abs_le_peakQ hb
    · obtain ⟨a0, ha0, habs⟩ := peakQ_achieved hpos
      refine ⟨some (a0 * (1 / peakQ copied)), ?_, ?_⟩
      · rw [hres]
        exact List.mem_map.mpr ⟨a0, ha0, rfl⟩
      · rcases (abs_eq (le_of_lt hpos)).mp habs with rfl | rfl
        · left
          rw [mul_one_div, div_self (ne_of_gt hpos)]
        · right
          rw [mul_one_div, neg_div, div_self (ne_of_gt hpos)]
  · intro h2
    have hz : peakQ copied = 0 := peakQ_eq_zero h2
    rw [hrw, hz, if_neg (lt_irrefl 0)]
  · have hspec := startIndexOf_spec w p
    rw [← hsd] at hspec
    exact hspec

/-- Claim C6 witness: the amended statement instantiated at the concrete
window [0, 1, 0, -1] with sampleRate 4 and frequency bounds 1 and 2
(period 2, start offset 0, normalized cycle [0, 1]). -/
theorem c6_extract_cycle_witness :
    periodOf (windowOf [0, 1, 0, -1]) 4 1 2 ≤ (windowOf [0, 1, 0, -1]).length ∧
    ExtractSpec [0, 1, 0, -1] 4 1 2 :=
  ⟨of_decide_eq_true (by with_unfolding_all rfl),
   (c6_extract_cycle [0, 1, 0, -1] 4 1 2 (by norm_num) (by norm_num)).2 (by simp)
     (of_decide_eq_true (by with_unfolding_all rfl))⟩

/-! ### Claim C7: the autocorrelation argmax -/

theorem bestStep_some (window : List ℚ) (d : ℕ) (s : ℚ) (lag : ℕ) :
    bestStep window (d, some s) lag =
      if s < autocorrScore window lag then (lag, some (autocorrScore window lag))
      else (d, some s) := rfl

theorem bestFold_snd (window : List ℚ) :
    ∀ (cs : List ℕ) (d : ℕ) (s : ℚ),
      (cs.foldl (bestStep window) (d, some s)).2 =
        some (cs.foldl (fun m c => max m (autocorrScore window c)) s) := by
  intro cs
  induction cs with
  | nil => intro d s; rfl
  | cons c cs ih =>
    intro d s
    rw [List.foldl_cons, List.foldl_cons, bestStep_some]
    by_cases h : s < autocorrScore window c
    · rw [if_pos h, ih, max_eq_right (le_of_lt h)]
    · rw [if_neg h, ih, max_eq_left (le_of_not_lt h)]

theorem bestFold_keep (window : List ℚ) :
    ∀ (cs : List ℕ) (d : ℕ) (s : ℚ),
      (∀ c ∈ cs, autocorrScore window c ≤ s) →
      cs.foldl (bestStep window) (d, some s) = (d, some s) := by
  intro cs
  induction cs with
  | nil => intro d s _; rfl
  | cons c cs ih =>
    intro d s h
    rw [List.foldl_cons, bestStep_some, if_neg (not_lt.mpr (h c (List.mem_cons_self c cs)))]
    exact ih d s fun x hx => h x (List.mem_cons_of_mem c hx)

theorem bestFold_cases (window : List ℚ) :
    ∀ (cs : List ℕ) (d : ℕ) (s : ℚ),
      cs.foldl (bestStep window) (d, some s) = (d, some s) ∨
      ((cs.foldl (bestStep window) (d, some s)).1 ∈ cs ∧
        (cs.foldl (bestStep window) (d, some s)).2 =
          some (autocorrScore window (cs.foldl (bestStep window) (d, some s)).1)) := by
  intro cs
  induction cs with
  | nil => intro d s; exact Or.inl rfl
  | cons c cs ih =>
    intro d s
    rw [List.foldl_cons, bestStep_some]
    by_cases h : s < autocorrScore window c
    · rw [if_pos h]
      rcases ih c (autocorrScore window c) with h1 | ⟨h1, h2⟩
      · right
        rw [h1]
        exact ⟨List.mem_cons_self c cs, rfl⟩
      · exact Or.inr ⟨List.mem_cons_of_mem c h1, h2⟩
    · rw [if_neg h]
      rcases ih d s with h1 | ⟨h1, h2⟩
      · exact Or.inl h1
      · exact Or.inr ⟨List.mem_cons_of_mem c h1, h2⟩

theorem maxFold_le_self (f : ℕ → ℚ) :
    ∀ (cs : List ℕ) (s : ℚ), s ≤ cs.foldl (fun m c => max m (f c)) s := by
  intro cs
  induction cs with
  | nil => intro s; exact le_refl s
  | cons c cs ih =>
    intro s
    rw [List.foldl_cons]
    exact le_trans (le_max_left _ _) (ih _)

theorem maxFold_le (f : ℕ → ℚ) :
    ∀ (cs : List ℕ) (s : ℚ) (c : ℕ), c ∈ cs → f c ≤ cs.foldl (fun m c => max m (f c)) s := by
  intro cs
  induction cs with
  | nil => intro s c hc; simp at hc
  | cons b cs ih =>
    intro s c hc
    rw [List.foldl_cons]
    rcases List.mem_cons.mp hc with rfl | hc
    · exact le_trans (le_max_right _ _) (maxFold_le_self f cs _)
    · exact ih _ c hc

theorem bestFold_first_max (window : List ℚ) :
    ∀ (cs : List ℕ) (d : ℕ) (s : ℚ), cs.Pairwise (· < ·) →
      ∀ c ∈ cs, s < autocorrScore window c →
        autocorrScore window c = cs.foldl (fun m x => max m (autocorrScore window x)) s →
        (cs.foldl (bestStep window) (d, some s)).1 ≤ c := by
  intro cs
  induction cs with
  | nil => intro d s _ c hc; simp at hc
  | cons b cs ih =>
    intro d s hpw c hc hs hM
    have hb := (List.pairwise_cons.mp hpw).1
    have hpw' := (List.pairwise_cons.mp hpw).2
    rw [List.foldl_cons, bestStep_some]
    rw [List.foldl_cons] at hM
    by_cases h : s < autocorrScore window b
    · rw [if_pos h]
      rw [max_eq_right (le_of_lt h)] at hM
      rcases List.mem_cons.mp hc with rfl | hc'
      · have hall : ∀ y ∈ cs, autocorrScore window y ≤ autocorrScore window c := by
          intro y hy
          rw [hM]
          exact maxFold_le _ cs _ y hy
        rw [bestFold_keep window cs c _ hall]
      · have hba : autocorrScore window b ≤ autocorrScore window c := by
          rw [hM]
          exact maxFold_le_self _ cs _
        rcases lt_or_eq_of_le hba with hlt | heq
        · exact ih b (autocorrScore window b) hpw' c hc' hlt hM
        · have hall : ∀ y ∈ cs, autocorrScore window y ≤ autocorrScore window b := by
            intro y hy
            rw [heq, hM]
            exact maxFold_le _ cs _ y hy
          rw [bestFold_keep window cs b _ hall]
          exact le_of_lt (hb c hc')
    · rw [if_neg h]
      rw [max_eq_left (le_of_not_lt h)] at hM
      rcases List.mem_cons.mp hc with rfl | hc'
      · exact absurd hs h
      · exact ih d s hpw' c hc' hs hM

theorem lagCandidates_eq_cons {minLag : ℕ} {maxLag : ℤ} (h : (minLag : ℤ) ≤ maxLag) :
    lagCandidates minLag maxLag =
      minLag :: List.range' (minLag + 1) ((maxLag + 1 - minLag).toNat - 1) := by
  unfold lagCandidates
  have he : (maxLag + 1 - (minLag : ℤ)).toNat = ((maxLag + 1 - minLag).toNat - 1) + 1 := by
    omega
  rw [he, List.range'_succ]
  simp

theorem mem_lagCandidates {minLag : ℕ} {maxLag : ℤ} {lag : ℕ} :
    lag ∈ lagCandidates minLag maxLag ↔ minLag ≤ lag ∧ (lag : ℤ) ≤ maxLag := by
  unfold lagCandidates
  rw [mem_range'_iff]
  omega

/-- Full specification of the best-lag fold on a non-empty lag range:
membership, maximality, and ties resolved to the smallest lag. -/
theorem bestLag_spec (window : List ℚ) (minLag : ℕ) (maxLag : ℤ)
    (h : (minLag : ℤ) ≤ maxLag) :
    (minLag ≤ bestLag window minLag maxLag ∧
      (bestLag window minLag maxLag : ℤ) ≤ maxLag) ∧
    (∀ lag, minLag ≤ lag → (lag : ℤ) ≤ maxLag →
      autocorrScore window lag ≤ autocorrScore window (bestLag window minLag maxLag)) ∧
    (∀ lag, minLag ≤ lag → (lag : ℤ) ≤ maxLag →
      autocorrScore window lag = autocorrScore window (bestLag window minLag maxLag) →
      bestLag window minLag maxLag ≤ lag) := by
  have hcons := lagCandidates_eq_cons h
  set rest := List.range' (minLag + 1) ((maxLag + 1 - minLag).toNat - 1) with hrest
  have hsorted : rest.Pairwise (· < ·) := pairwise_lt_range' _ _
  have hfold : bestLagPair window minLag maxLag =
      rest.foldl (bestStep window) (minLag, some (autocorrScore window minLag)) := by
    unfold bestLagPair
    rw [hcons, List.foldl_cons]
    rfl
  have hsnd : (bestLagPair window minLag maxLag).2 =
      some (rest.foldl (fun m x => max m (autocorrScore window x))
        (autocorrScore window minLag)) := by
    rw [hfold]
    exact bestFold_snd window rest minLag _
  have hmem_rest : ∀ x ∈ rest, x ∈ lagCandidates minLag maxLag := by
    intro x hx
    rw [hcons]
    exact List.mem_cons_of_mem _ hx
  have hchar : (bestLag window minLag maxLag = minLag ∨
      bestLag window minLag maxLag ∈ rest) ∧
      autocorrScore window (bestLag window minLag maxLag) =
        rest.foldl (fun m x => max m (autocorrScore window x))
          (autocorrScore window minLag) := by
    rcases bestFold_cases window rest minLag (autocorrScore window minLag) with h1 | ⟨h1, h2⟩
    · have hM : autocorrScore window minLag =
          rest.foldl (fun m x => max m (autocorrScore window x))
            (autocorrScore window minLag) := by
        have := hsnd
        rw [hfold, h1] at this
        exact Option.some.inj this
      unfold bestLag
      rw [hfold, h1]
      exact ⟨Or.inl rfl, hM⟩
    · have hM := hsnd
      rw [hfold, h2] at hM
      unfold bestLag
      rw [hfold]
      exact ⟨Or.inr h1, Option.some.inj hM⟩
  have hbest_mem : bestLag window minLag maxLag ∈ lagCandidates minLag maxLag := by
    rcases hchar.1 with h1 | h1
    · rw [h1, hcons]
      exact List.mem_cons_self _ _
    · exact hmem_rest _ h1
  have hbounds := mem_lagCandidates.mp hbest_mem
  refine ⟨hbounds, ?_, ?_⟩
  · intro lag h1 h2
    rw [hchar.2]
    have : lag ∈ lagCandidates minLag maxLag := mem_lagCandidates.mpr ⟨h1, h2⟩
    rw [hcons] at this
    rcases List.mem_cons.mp this with rfl | hlag
    · exact maxFold_le_self _ rest _
    · exact maxFold_le _ rest _ lag hlag
  · intro lag h1 h2 heq
    have hlagmem : lag ∈ lagCandidates minLag maxLag := mem_lagCandidates.mpr ⟨h1, h2⟩
    rw [hcons] at hlagmem
    rcases List.mem_cons.mp hlagmem with rfl | hlag
    · have hall : ∀ y ∈ rest, autocorrScore window y ≤ autocorrScore window lag := by
        intro y hy
        rw [heq.trans hchar.2]
        exact maxFold_le _ rest _ y hy
      have hkeep := bestFold_keep window rest lag (autocorrScore window lag) hall
      have hbl : bestLag window lag maxLag = lag := by
        unfold bestLag
        rw [hfold, hkeep]
      rw [hbl]
    · by_cases hs : autocorrScore window minLag < autocorrScore window lag
      · have hfm := bestFold_first_max window rest minLag (autocorrScore window minLag)
          hsorted lag hlag hs (heq.trans hchar.2)
        unfold bestLag
        rw [hfold]
        exact hfm
      · have hs0M : autocorrScore window minLag =
            rest.foldl (fun m x => max m (autocorrScore window x))
              (autocorrScore window minLag) := by
          refine le_antisymm (maxFold_le_self _ rest _) ?_
          rw [← hchar.2, ← heq]
          exact le_of_not_lt hs
        have hall : ∀ y ∈ rest, autocorrScore window y ≤ autocorrScore window minLag := by
          intro y hy
          rw [hs0M]
          exact maxFold_le _ rest _ y hy
        have hkeep := bestFold_keep window rest minLag (autocorrScore window minLag) hall
        have hbl : bestLag window minLag maxLag = minLag := by
          unfold bestLag
          rw [hfold, hkeep]
        rw [hbl]
        exact h1

/-- The maximality-and-tie-breaking property claimed for the period
estimator's lag search, stated with the autocorrelation written as the
explicit overlap sum `Σ window[i]·window[i+lag]`, `i < length - lag`, plus
the fact that the retained period equals the selected lag. -/
def BestLagSpec (window : List ℚ) (sr minF maxF : ℚ) : Prop :=
  let minLag := minLagOf sr maxF
  let maxLag := maxLagOf window.length sr minF
  let best := bestLag window minLag maxLag
  (minLag ≤ best ∧ (best : ℤ) ≤ maxLag) ∧
  (∀ lag : ℕ, minLag ≤ lag → (lag : ℤ) ≤ maxLag →
    ∑ i ∈ Finset.range (window.length - lag), window.getD i 0 * window.getD (i + lag) 0 ≤
      ∑ i ∈ Finset.range (window.length - best), window.getD i 0 * window.getD (i + best) 0) ∧
  (∀ lag : ℕ, minLag ≤ lag → (lag : ℤ) ≤ maxLag →
    (∑ i ∈ Finset.range (window.length - lag), window.getD i 0 * window.getD (i + lag) 0 =
      ∑ i ∈ Finset.range (window.length - best), window.getD i 0 * window.getD (i + best) 0) →
    best ≤ lag) ∧
  periodOf window sr minF maxF = best

theorem autocorrScore_eq_sum (window : List ℚ) (lag : ℕ) :
    autocorrScore window lag =
      ∑ i ∈ Finset.range (window.length - lag), window.getD i 0 * window.getD (i + lag) 0 := by
  unfold autocorrScore
  rw [foldl_add_eq_sum (fun i => window.getD i 0 * window.getD (i + lag) 0), zero_add]

/-- Claim C7: for every window and every valid lag range with
minLag ≤ maxLag, the period estimator selects the lag in [minLag, maxLag]
whose unnormalized autocorrelation sum over the valid overlap region is
maximal, ties resolved to the smallest such lag, and the returned period is
that lag. -/
theorem c7_autocorr_argmax (window : List ℚ) (sr minF maxF : ℚ)
    (hminF : 0 < minF) (hmaxF : 0 < maxF)
    (h : (minLagOf sr maxF : ℤ) ≤ maxLagOf window.length sr minF) :
    BestLagSpec window sr minF maxF := by
  have _ := hminF
  have _ := hmaxF
  obtain ⟨⟨hb1, hb2⟩, hmax, htie⟩ :=
    bestLag_spec window (minLagOf sr maxF) (maxLagOf window.length sr minF) h
  refine ⟨⟨hb1, hb2⟩, ?_, ?_, ?_⟩
  · intro lag h1 h2
    rw [← autocorrScore_eq_sum, ← autocorrScore_eq_sum]
    exact hmax lag h1 h2
  · intro lag h1 h2 heq
    refine htie lag h1 h2 ?_
    rw [autocorrScore_eq_sum, autocorrScore_eq_sum]
    exact heq
  · unfold periodOf
    exact max_eq_right (le_trans (le_max_left 2 _) hb1)

/-- Claim C7 witness: the lag-search specification instantiated on the
concrete window [1,0,1,0,1,0,1,0] at sampleRate 8, frequency bounds 1–4 Hz
(lag range [2,6], best lag 2 with score 3). -/
theorem c7_autocorr_argmax_witness :
    ((minLagOf 8 4 : ℤ) ≤ maxLagOf ([1, 0, 1, 0, 1, 0, 1, 0] : List ℚ).length 8 1) ∧
    BestLagSpec [1, 0, 1, 0, 1, 0, 1, 0] 8 1 4 :=
  ⟨of_decide_eq_true (by with_unfolding_all rfl),
   c7_autocorr_argmax [1, 0, 1, 0, 1, 0, 1, 0] 8 1 4 (by norm_num) (by norm_num)
     (of_decide_eq_true (by with_unfolding_all rfl))⟩

end WavetableWeb
